import Mathlib

/-!
Shallow embedding of the score-tracking / chat-relay service
(`src/server.js`, `src/server_mongo.js`, `src/server_supabase.js`).

The Ledger is a list of ScoreEvents in insertion order; the Identity
Directory is an association list keyed by the external twitter id; the
Announcement/Chat Log and the Broadcast Channel are lists of messages in
append order.  The unspecified engine tie-break of `ORDER BY ... DESC`
is rendered as a stable insertion sort on the respective pipeline input.
-/

/-- Display profile cached in the `users` table (username, photoUrl,
profileUrl columns; the key twitterId is the association-list key). -/
structure Profile where
  username : String
  photoUrl : String
  profileUrl : String
deriving DecidableEq, Repr

/-- One row of the `scores` table: an immutable (identity, score) event.
Insertion order in the Ledger list plays the role of the autoincrement id. -/
structure ScoreEvent where
  twitterId : String
  score : Nat
deriving DecidableEq, Repr

/-- A derived leaderboard row as produced by the sqlite / mongo queries:
the grouping key plus the joined user columns and the aggregated max. -/
structure Entry where
  twitterId : String
  username : String
  photoUrl : String
  profileUrl : String
  highScore : Nat
deriving DecidableEq, Repr

/-- A leaderboard row of the supabase variant's JS post-processing
(it never carries the twitter id, only the joined user columns). -/
structure SEntry where
  username : String
  photoUrl : String
  profileUrl : String
  highScore : Nat
deriving DecidableEq, Repr

/-- A chat / announcement message: author label and text. -/
structure Msg where
  user : String
  text : String
deriving DecidableEq, Repr

/-- The authenticated identity attached to a request by the session layer. -/
structure UserRec where
  twitterId : String
  username : String
deriving DecidableEq, Repr

/-- The storage-visible state of the service: identity directory,
score Ledger, chat log, and the sequence of broadcast messages. -/
structure ServerState where
  users : List (String × Profile)
  scores : List ScoreEvent
  messages : List Msg
  emitted : List Msg
deriving DecidableEq, Repr

/-- Outcome of a score submission as seen by the submitter. -/
inductive SubmitResult where
  | unauthenticated
  | storageError
  | success
deriving DecidableEq, Repr

/-- Durable / outward operations a request handler performs, in program
order: Ledger append, chat-log append, broadcast publish. -/
inductive Op where
  | appendScore (e : ScoreEvent)
  | appendMsg (m : Msg)
  | publish (m : Msg)
deriving DecidableEq, Repr

/-! ### Stable descending sort by a Nat key (model of `ORDER BY _ DESC`) -/

/-- Insert an element into a descending-sorted list, keeping existing
elements with an equal key in front (stability). -/
def insertKeyDesc (key : α → Nat) (a : α) : List α → List α
  | [] => [a]
  | b :: bs => if key b ≤ key a then a :: b :: bs else b :: insertKeyDesc key a bs

/-- Stable insertion sort, descending by `key`. -/
def sortByKeyDesc (key : α → Nat) : List α → List α
  | [] => []
  | a :: as => insertKeyDesc key a (sortByKeyDesc key as)

theorem perm_insertKeyDesc (key : α → Nat) (a : α) (l : List α) :
    List.Perm (insertKeyDesc key a l) (a :: l) := by
  induction l with
  | nil => simp [insertKeyDesc]
  | cons b bs ih =>
    by_cases h : key b ≤ key a
    · simp [insertKeyDesc, h]
    · simp only [insertKeyDesc, if_neg h]
      exact (ih.cons b).trans (List.Perm.swap a b bs)

theorem perm_sortByKeyDesc (key : α → Nat) (l : List α) :
    List.Perm (sortByKeyDesc key l) l := by
  induction l with
  | nil => exact List.Perm.refl _
  | cons a as ih =>
    exact (perm_insertKeyDesc key a (sortByKeyDesc key as)).trans (ih.cons a)

theorem mem_sortByKeyDesc (key : α → Nat) (l : List α) (x : α) :
    x ∈ sortByKeyDesc key l ↔ x ∈ l :=
  (perm_sortByKeyDesc key l).mem_iff

theorem mem_insertKeyDesc (key : α → Nat) (a : α) (l : List α) (x : α) :
    x ∈ insertKeyDesc key a l ↔ x = a ∨ x ∈ l := by
  rw [(perm_insertKeyDesc key a l).mem_iff, List.mem_cons]

theorem pairwise_insertKeyDesc (key : α → Nat) (a : α) (l : List α)
    (hl : l.Pairwise (fun x y => key y ≤ key x)) :
    (insertKeyDesc key a l).Pairwise (fun x y => key y ≤ key x) := by
  induction l with
  | nil => simp [insertKeyDesc]
  | cons b bs ih =>
    rcases List.pairwise_cons.mp hl with ⟨hb, hbs⟩
    by_cases h : key b ≤ key a
    · simp only [insertKeyDesc, if_pos h]
      refine List.pairwise_cons.mpr ⟨?_, hl⟩
      intro x hx
      rcases List.mem_cons.mp hx with rfl | hx
      · exact h
      · exact le_trans (hb x hx) h
    · simp only [insertKeyDesc, if_neg h]
      refine List.pairwise_cons.mpr ⟨?_, ih hbs⟩
      intro x hx
      rcases (mem_insertKeyDesc key a bs x).mp hx with rfl | hx
      · exact le_of_lt (lt_of_not_le h)
      · exact hb x hx

theorem pairwise_sortByKeyDesc (key : α → Nat) (l : List α) :
    (sortByKeyDesc key l).Pairwise (fun x y => key y ≤ key x) := by
  induction l with
  | nil => simp [sortByKeyDesc]
  | cons a as ih => exact pairwise_insertKeyDesc key a _ ih

/-! ### First-occurrence dedup (model of `GROUP BY` / first-seen grouping) -/

/-- Keep each string's first occurrence, in first-occurrence order. -/
def dedupKeep : List String → List String
  | [] => []
  | x :: xs => x :: (dedupKeep xs).filter (fun y => y ≠ x)

theorem mem_dedupKeep (l : List String) (a : String) :
    a ∈ dedupKeep l ↔ a ∈ l := by
  induction l with
  | nil => simp [dedupKeep]
  | cons x xs ih =>
    simp only [dedupKeep, List.mem_cons, List.mem_filter]
    constructor
    · rintro (rfl | ⟨h, _⟩)
      · exact Or.inl rfl
      · exact Or.inr (ih.mp h)
    · rintro (rfl | h)
      · exact Or.inl rfl
      · by_cases hx : a = x
        · exact Or.inl hx
        · exact Or.inr ⟨ih.mpr h, by simp [hx]⟩

theorem nodup_dedupKeep (l : List String) : (dedupKeep l).Nodup := by
  induction l with
  | nil => simp [dedupKeep]
  | cons x xs ih =>
    refine List.Pairwise.cons ?_ (List.Nodup.filter _ ih)
    intro y hy
    rcases List.mem_filter.mp hy with ⟨_, hne⟩
    intro hxy
    simp [hxy] at hne

/-! ### Max over a list of Nat (model of the `MAX` aggregate) -/

theorem foldr_max_init (a : Nat) (l : List Nat) :
    l.foldr max a = max (l.foldr max 0) a := by
  induction l with
  | nil => simp
  | cons x t ih => simp [List.foldr, ih, Nat.max_assoc]

theorem foldr_max_mem (l : List Nat) (h : l ≠ []) : l.foldr max 0 ∈ l := by
  induction l with
  | nil => exact absurd rfl h
  | cons x t ih =>
    cases t with
    | nil => simp
    | cons y ys =>
      rw [List.foldr_cons]
      rcases Nat.le_total x ((y :: ys).foldr max 0) with hle | hle
      · rw [Nat.max_eq_right hle]
        exact List.mem_cons_of_mem x (ih (by simp))
      · rw [Nat.max_eq_left hle]
        exact List.mem_cons_self x _

theorem foldr_max_ge (l : List Nat) (s : Nat) (hs : s ∈ l) : s ≤ l.foldr max 0 := by
  induction l with
  | nil => cases hs
  | cons x t ih =>
    rcases List.mem_cons.mp hs with rfl | hs
    · exact Nat.le_max_left _ _
    · exact le_trans (ih hs) (Nat.le_max_right _ _)

/-! ### Identity Directory lookup (the `users` table / collection) -/

/-- Look an identity up in the directory (first row whose key matches,
as the SQL join / `$lookup` / nested select does). -/
def lookupUser (users : List (String × Profile)) (id : String) : Option Profile :=
  (users.find? (fun p => p.1 == id)).map Prod.snd

theorem lookupUser_mem {users : List (String × Profile)} {id : String} {pr : Profile}
    (h : lookupUser users id = some pr) : (id, pr) ∈ users := by
  unfold lookupUser at h
  cases hf : users.find? (fun p => p.1 == id) with
  | none => rw [hf] at h; cases h
  | some q =>
    rw [hf] at h
    have hq : q ∈ users := List.mem_of_find?_eq_some hf
    have hkey := List.find?_some hf
    have h1 : q.1 = id := by simpa using hkey
    have h2 : q.2 = pr := by simpa using h
    have : q = (id, pr) := by
      cases q
      simp_all
    rw [this] at hq
    exact hq

/-! ### The sqlite leaderboard pipeline (`GET /api/leaderboard`, server.js)

`SELECT u.username, u.photoUrl, u.profileUrl, MAX(s.score) as highScore
 FROM scores s JOIN users u ON s.twitterId = u.twitterId
 GROUP BY u.twitterId ORDER BY highScore DESC LIMIT 20` -/

/-- The grouping keys: each twitterId occurring in the Ledger, once. -/
def ledgerIds (l : List ScoreEvent) : List String :=
  dedupKeep (l.map ScoreEvent.twitterId)

/-- All scoreValues submitted by one identity. -/
def scoresOf (l : List ScoreEvent) (id : String) : List Nat :=
  (l.filter (fun e => e.twitterId == id)).map ScoreEvent.score

/-- `MAX(s.score)` over one identity's group (0 on an empty group,
which never reaches the leaderboard since groups are nonempty). -/
def bestScore (l : List ScoreEvent) (id : String) : Nat :=
  (scoresOf l id).foldr max 0

/-- One grouped-and-joined row per Ledger identity present in the
directory (the inner join drops identities without a user row). -/
def groupedEntries (l : List ScoreEvent) (users : List (String × Profile)) : List Entry :=
  (ledgerIds l).filterMap (fun id =>
    (lookupUser users id).map (fun pr =>
      { twitterId := id, username := pr.username, photoUrl := pr.photoUrl,
        profileUrl := pr.profileUrl, highScore := bestScore l id }))

/-- The full leaderboard, descending by best score. -/
def leaderboardAll (l : List ScoreEvent) (users : List (String × Profile)) : List Entry :=
  sortByKeyDesc Entry.highScore (groupedEntries l users)

/-- The public leaderboard view (`LIMIT 20`). -/
def getLeaderboard (l : List ScoreEvent) (users : List (String × Profile)) : List Entry :=
  (leaderboardAll l users).take 20

/-- The top-3 prefix used by the Placement Detector (`LIMIT 3`). -/
def top3 (l : List ScoreEvent) (users : List (String × Profile)) : List Entry :=
  (leaderboardAll l users).take 3

theorem mem_groupedEntries {l : List ScoreEvent} {users : List (String × Profile)} {e : Entry} :
    e ∈ groupedEntries l users ↔
      e.twitterId ∈ ledgerIds l ∧
      lookupUser users e.twitterId =
        some ⟨e.username, e.photoUrl, e.profileUrl⟩ ∧
      e.highScore = bestScore l e.twitterId := by
  unfold groupedEntries
  rw [List.mem_filterMap]
  constructor
  · rintro ⟨id, hid, hmap⟩
    cases hpr : lookupUser users id with
    | none => rw [hpr] at hmap; cases hmap
    | some pr =>
      rw [hpr] at hmap
      simp only [Option.map_some'] at hmap
      cases hmap
      exact ⟨hid, by simpa using hpr, rfl⟩
  · rintro ⟨hid, hpr, hbest⟩
    refine ⟨e.twitterId, hid, ?_⟩
    rw [hpr]
    simp only [Option.map_some']
    congr 1
    cases e
    simp_all

theorem mem_leaderboardAll {l : List ScoreEvent} {users : List (String × Profile)} {e : Entry} :
    e ∈ leaderboardAll l users ↔
      e.twitterId ∈ ledgerIds l ∧
      lookupUser users e.twitterId =
        some ⟨e.username, e.photoUrl, e.profileUrl⟩ ∧
      e.highScore = bestScore l e.twitterId := by
  unfold leaderboardAll
  rw [mem_sortByKeyDesc]
  exact mem_groupedEntries

theorem groupedEntries_ids (l : List ScoreEvent) (users : List (String × Profile)) :
    (groupedEntries l users).map Entry.twitterId =
      (ledgerIds l).filter (fun id => (lookupUser users id).isSome) := by
  unfold groupedEntries
  induction ledgerIds l with
  | nil => simp
  | cons id ids ih =>
    cases hpr : lookupUser users id with
    | none => simp [hpr, ih]
    | some pr => simp [hpr, ih]

theorem nodup_leaderboardAll_ids (l : List ScoreEvent) (users : List (String × Profile)) :
    ((leaderboardAll l users).map Entry.twitterId).Nodup := by
  have hperm := (perm_sortByKeyDesc Entry.highScore (groupedEntries l users)).map Entry.twitterId
  rw [show (leaderboardAll l users).map Entry.twitterId
        = (sortByKeyDesc Entry.highScore (groupedEntries l users)).map Entry.twitterId from rfl]
  refine hperm.nodup_iff.mpr ?_
  rw [groupedEntries_ids]
  exact List.Nodup.filter _ (nodup_dedupKeep _)

theorem pairwise_leaderboardAll (l : List ScoreEvent) (users : List (String × Profile)) :
    (leaderboardAll l users).Pairwise (fun a b => b.highScore ≤ a.highScore) :=
  pairwise_sortByKeyDesc Entry.highScore (groupedEntries l users)

theorem mem_ledgerIds {l : List ScoreEvent} {id : String} :
    id ∈ ledgerIds l ↔ ∃ e ∈ l, e.twitterId = id := by
  unfold ledgerIds
  rw [mem_dedupKeep, List.mem_map]

theorem mem_scoresOf {l : List ScoreEvent} {id : String} {s : Nat} :
    s ∈ scoresOf l id ↔ ∃ e ∈ l, e.twitterId = id ∧ e.score = s := by
  unfold scoresOf
  rw [List.mem_map]
  constructor
  · rintro ⟨e, he, rfl⟩
    rcases List.mem_filter.mp he with ⟨hel, hid⟩
    exact ⟨e, hel, by simpa using hid, rfl⟩
  · rintro ⟨e, hel, hid, rfl⟩
    exact ⟨e, List.mem_filter.mpr ⟨hel, by simpa using hid⟩, rfl⟩

theorem scoresOf_ne_nil {l : List ScoreEvent} {id : String} (h : id ∈ ledgerIds l) :
    scoresOf l id ≠ [] := by
  rcases mem_ledgerIds.mp h with ⟨e, hel, rfl⟩
  intro hnil
  have : e.score ∈ scoresOf l e.twitterId := mem_scoresOf.mpr ⟨e, hel, rfl, rfl⟩
  rw [hnil] at this
  cases this

theorem bestScore_mem {l : List ScoreEvent} {id : String} (h : id ∈ ledgerIds l) :
    bestScore l id ∈ scoresOf l id :=
  foldr_max_mem _ (scoresOf_ne_nil h)

theorem bestScore_ge {l : List ScoreEvent} {id : String} {s : Nat}
    (hs : s ∈ scoresOf l id) : s ≤ bestScore l id :=
  foldr_max_ge _ s hs

theorem scoresOf_append (l : List ScoreEvent) (e : ScoreEvent) (id : String) :
    scoresOf (l ++ [e]) id =
      scoresOf l id ++ (if e.twitterId == id then [e.score] else []) := by
  unfold scoresOf
  rw [List.filter_append, List.map_append]
  congr 1
  by_cases h : (e.twitterId == id) = true
  · rw [if_pos h]
    simp [List.filter_cons, h]
  · rw [if_neg h]
    simp [List.filter_cons, h]

theorem bestScore_append_same (l : List ScoreEvent) (id : String) (s : Nat) :
    bestScore (l ++ [⟨id, s⟩]) id = max (bestScore l id) s := by
  unfold bestScore
  rw [scoresOf_append]
  simp only [beq_self_eq_true, if_pos]
  rw [List.foldr_append]
  simp only [List.foldr]
  rw [foldr_max_init]
  simp [Nat.max_comm]

/-! ### The Placement Detector (`POST /api/score`, shared shape)

`rank = top3.findIndex(r => r.username === user.username) + 1`,
`userRecord = top3.find(r => r.username === user.username)`,
announce iff `rank > 0 && rank <= 3 && userRecord && userRecord.highScore === score`.
The detector only reads the username and highScore columns of the top-3
rows, so it is stated over that projection. -/

/-- The (username, highScore) projection of sqlite / mongo rows. -/
def pairsOf (l : List Entry) : List (String × Nat) :=
  l.map (fun e => (e.username, e.highScore))

/-- The (username, highScore) projection of supabase rows. -/
def pairsOfS (l : List SEntry) : List (String × Nat) :=
  l.map (fun e => (e.username, e.highScore))

/-- `findIndex(...) + 1`: 1-based rank of the first row with the given
username, 0 when absent. -/
def rankOfP (uname : String) : List (String × Nat) → Nat
  | [] => 0
  | p :: rest =>
    if p.1 = uname then 1
    else if rankOfP uname rest = 0 then 0 else rankOfP uname rest + 1

/-- `find(...)`: the first row with the given username. -/
def entryForP (uname : String) : List (String × Nat) → Option (String × Nat)
  | [] => none
  | p :: rest => if p.1 = uname then some p else entryForP uname rest

/-- The announcement-trigger condition of all three POST handlers. -/
def decideAnnounce (t3 : List (String × Nat)) (uname : String) (s : Nat) : Bool :=
  let rank := rankOfP uname t3
  match entryForP uname t3 with
  | none => false
  | some p => decide (1 ≤ rank) && decide (rank ≤ 3) && (p.2 == s)

/-- The templated announcement text. -/
def mkAnnouncement (rank : Nat) (uname : String) (s : Nat) : String :=
  "👑 @" ++ uname ++ " just took #" ++ toString rank ++ " place with " ++
    toString s ++ " points!"

theorem rankOfP_eq_zero_iff (uname : String) (l : List (String × Nat)) :
    rankOfP uname l = 0 ↔ entryForP uname l = none := by
  induction l with
  | nil => simp [rankOfP, entryForP]
  | cons p rest ih =>
    by_cases h : p.1 = uname
    · simp [rankOfP, entryForP, h]
    · simp only [rankOfP, entryForP, if_neg h]
      by_cases hz : rankOfP uname rest = 0
      · simp [hz, ih.mp hz]
      · simp only [if_neg hz]
        constructor
        · intro hc
          exact absurd hc (Nat.succ_ne_zero _)
        · intro hc
          exact absurd (ih.mpr hc) hz

theorem rankOfP_le_length (uname : String) (l : List (String × Nat)) :
    rankOfP uname l ≤ l.length := by
  induction l with
  | nil => simp [rankOfP]
  | cons p rest ih =>
    by_cases h : p.1 = uname
    · simp [rankOfP, h]
    · simp only [rankOfP, if_neg h, List.length_cons]
      by_cases hz : rankOfP uname rest = 0
      · simp [hz]
      · simp only [if_neg hz]
        omega

theorem entryForP_some {uname : String} {l : List (String × Nat)} {p : String × Nat}
    (h : entryForP uname l = some p) : p ∈ l ∧ p.1 = uname := by
  induction l with
  | nil => cases h
  | cons q rest ih =>
    by_cases hq : q.1 = uname
    · simp only [entryForP, if_pos hq] at h
      cases h
      exact ⟨List.mem_cons_self _ _, hq⟩
    · simp only [entryForP, if_neg hq] at h
      rcases ih h with ⟨hm, hu⟩
      exact ⟨List.mem_cons_of_mem _ hm, hu⟩

/-! ### Score submission, sqlite variant (`POST /api/score`, server.js)

Unauthenticated requests are rejected with 401 and touch nothing.
Otherwise the event is appended, the top-3 prefix is recomputed, and on
a positive detection one system message is appended to the chat log and
then published.  The third component is the trace of durable / outward
operations in program order. -/

def submitScore (st : ServerState) (auth : Option UserRec) (S : Nat) :
    SubmitResult × ServerState × List Op :=
  match auth with
  | none => (.unauthenticated, st, [])
  | some u =>
    let ev : ScoreEvent := ⟨u.twitterId, S⟩
    let scores' := st.scores ++ [ev]
    let t3 := pairsOf (top3 scores' st.users)
    if decideAnnounce t3 u.username S then
      let ann : Msg := ⟨"SYSTEM", mkAnnouncement (rankOfP u.username t3) u.username S⟩
      (.success,
       { st with scores := scores', messages := st.messages ++ [ann],
                 emitted := st.emitted ++ [ann] },
       [.appendScore ev, .appendMsg ann, .publish ann])
    else
      (.success, { st with scores := scores' }, [.appendScore ev])

/-! ### The mongo aggregation pipeline (`GET /api/leaderboard`, server_mongo.js)

`$sort score desc` → `$group` by twitterId with `$max` → `$lookup` +
`$unwind` (inner join) → `$sort highScore desc` → `$limit`. -/

def mongoGrouped (l : List ScoreEvent) (users : List (String × Profile)) : List Entry :=
  (dedupKeep ((sortByKeyDesc ScoreEvent.score l).map ScoreEvent.twitterId)).filterMap
    (fun id =>
      (lookupUser users id).map (fun pr =>
        { twitterId := id, username := pr.username, photoUrl := pr.photoUrl,
          profileUrl := pr.profileUrl,
          highScore := bestScore (sortByKeyDesc ScoreEvent.score l) id }))

def mongoLeaderboardAll (l : List ScoreEvent) (users : List (String × Profile)) : List Entry :=
  sortByKeyDesc Entry.highScore (mongoGrouped l users)

def mongoLeaderboard (l : List ScoreEvent) (users : List (String × Profile)) : List Entry :=
  (mongoLeaderboardAll l users).take 20

def mongoTop3 (l : List ScoreEvent) (users : List (String × Profile)) : List Entry :=
  (mongoLeaderboardAll l users).take 3

/-! ### Score submission, mongo variant (`POST /api/score`, server_mongo.js)

The whole handler body sits in one try/catch: a failure of the insert,
of the top-3 aggregation, or of the announcement insert each reaches the
catch block and answers 500.  `appendOk` / `checkOk` / `logOk` say
whether the respective storage call succeeds. -/

def submitScoreMongo (st : ServerState) (auth : Option UserRec) (S : Nat)
    (appendOk checkOk logOk : Bool) : SubmitResult × ServerState × List Op :=
  match auth with
  | none => (.unauthenticated, st, [])
  | some u =>
    if appendOk = false then (.storageError, st, [])
    else
      let ev : ScoreEvent := ⟨u.twitterId, S⟩
      let scores' := st.scores ++ [ev]
      if checkOk = false then
        (.storageError, { st with scores := scores' }, [.appendScore ev])
      else
        let t3 := pairsOf (mongoTop3 scores' st.users)
        if decideAnnounce t3 u.username S then
          if logOk = false then
            (.storageError, { st with scores := scores' }, [.appendScore ev])
          else
            let ann : Msg := ⟨"SYSTEM", mkAnnouncement (rankOfP u.username t3) u.username S⟩
            (.success,
             { st with scores := scores', messages := st.messages ++ [ann],
                       emitted := st.emitted ++ [ann] },
             [.appendScore ev, .appendMsg ann, .publish ann])
        else (.success, { st with scores := scores' }, [.appendScore ev])

/-! ### The supabase leaderboard (`GET /api/leaderboard`, server_supabase.js)

All score rows with their joined user are fetched ordered by score
descending; JS then keeps the first row per username (a Map insert
guarded by `has`) and slices the result. -/

def supaRows (l : List ScoreEvent) (users : List (String × Profile)) :
    List (Nat × Profile) :=
  (sortByKeyDesc ScoreEvent.score l).filterMap (fun e =>
    (lookupUser users e.twitterId).map (fun pr => (e.score, pr)))

/-- First-occurrence-per-username dedup over the descending rows;
`seen` is the set of usernames already taken. -/
def supaDedup : List (Nat × Profile) → List String → List SEntry
  | [], _ => []
  | (s, pr) :: rest, seen =>
    if pr.username ∈ seen then supaDedup rest seen
    else ⟨pr.username, pr.photoUrl, pr.profileUrl, s⟩ :: supaDedup rest (pr.username :: seen)

def supaBoardAll (l : List ScoreEvent) (users : List (String × Profile)) : List SEntry :=
  supaDedup (supaRows l users) []

def supaLeaderboard (l : List ScoreEvent) (users : List (String × Profile)) : List SEntry :=
  (supaBoardAll l users).take 20

def supaTop3 (l : List ScoreEvent) (users : List (String × Profile)) : List SEntry :=
  (supaBoardAll l users).take 3

/-! ### Score submission with explicit storage-failure paths

`submitScoreSqlite` models `POST /api/score` of server.js including its
error handling: a failed score insert answers 500 before anything else;
an error in the top-3 check callback is ignored (`if (!err && rows)`),
leaving the submission acknowledged; the announcement insert
(`sysStmt.run` with no error callback) is fire-and-forget, so when it
fails the message is never durably logged but `io.emit` still runs.

`submitScoreSupa` models `POST /api/score` of server_supabase.js: a
failed score insert is thrown and caught (500); a failed recompute
leaves `allScores` null and the `for..of` TypeError reaches the catch
(500) with the score already inserted; the messages insert returns an
`error` object that the code never checks, so on failure the emit still
runs and the submission is acknowledged. -/

def submitScoreSqlite (st : ServerState) (auth : Option UserRec) (S : Nat)
    (appendOk checkOk logOk : Bool) : SubmitResult × ServerState × List Op :=
  match auth with
  | none => (.unauthenticated, st, [])
  | some u =>
    if appendOk = false then (.storageError, st, [])
    else
      let ev : ScoreEvent := ⟨u.twitterId, S⟩
      let scores' := st.scores ++ [ev]
      if checkOk = false then
        (.success, { st with scores := scores' }, [.appendScore ev])
      else
        let t3 := pairsOf (top3 scores' st.users)
        if decideAnnounce t3 u.username S then
          let ann : Msg := ⟨"SYSTEM", mkAnnouncement (rankOfP u.username t3) u.username S⟩
          if logOk = false then
            (.success, { st with scores := scores', emitted := st.emitted ++ [ann] },
             [.appendScore ev, .publish ann])
          else
            (.success,
             { st with scores := scores', messages := st.messages ++ [ann],
                       emitted := st.emitted ++ [ann] },
             [.appendScore ev, .appendMsg ann, .publish ann])
        else (.success, { st with scores := scores' }, [.appendScore ev])

def submitScoreSupa (st : ServerState) (auth : Option UserRec) (S : Nat)
    (appendOk checkOk logOk : Bool) : SubmitResult × ServerState × List Op :=
  match auth with
  | none => (.unauthenticated, st, [])
  | some u =>
    if appendOk = false then (.storageError, st, [])
    else
      let ev : ScoreEvent := ⟨u.twitterId, S⟩
      let scores' := st.scores ++ [ev]
      if checkOk = false then
        (.storageError, { st with scores := scores' }, [.appendScore ev])
      else
        let t3 := pairsOfS (supaTop3 scores' st.users)
        if decideAnnounce t3 u.username S then
          let ann : Msg := ⟨"SYSTEM", mkAnnouncement (rankOfP u.username t3) u.username S⟩
          if logOk = false then
            (.success, { st with scores := scores', emitted := st.emitted ++ [ann] },
             [.appendScore ev, .publish ann])
          else
            (.success,
             { st with scores := scores', messages := st.messages ++ [ann],
                       emitted := st.emitted ++ [ann] },
             [.appendScore ev, .appendMsg ann, .publish ann])
        else (.success, { st with scores := scores' }, [.appendScore ev])

/-! ### Replay-on-connect (`io.on('connection')`)

`SELECT user, text FROM messages ORDER BY id DESC LIMIT 50` followed by
`rows.reverse()`: the last 50 logged messages, oldest first. -/

def replayList (log : List Msg) : List Msg :=
  (log.reverse.take 50).reverse

/-! ### Directory well-formedness and the detector's semantics -/

/-- Distinct identities carry distinct display usernames.  The login
upsert writes one row per twitter id with that account's (globally
unique) twitter username, so this holds for directories the login path
produces; the detector's username-based matching needs it. -/
abbrev UsernamesInj (users : List (String × Profile)) : Prop :=
  ∀ p ∈ users, ∀ q ∈ users, p.2.username = q.2.username → p.1 = q.1

theorem lookup_inj {users : List (String × Profile)}
    (hinj : UsernamesInj users) {id1 id2 : String} {pr1 pr2 : Profile}
    (h1 : lookupUser users id1 = some pr1) (h2 : lookupUser users id2 = some pr2)
    (hn : pr1.username = pr2.username) : id1 = id2 :=
  hinj (id1, pr1) (lookupUser_mem h1) (id2, pr2) (lookupUser_mem h2) hn

theorem mem_pairsOf {l : List Entry} {p : String × Nat} :
    p ∈ pairsOf l ↔ ∃ e ∈ l, e.username = p.1 ∧ e.highScore = p.2 := by
  unfold pairsOf
  rw [List.mem_map]
  constructor
  · rintro ⟨e, he, rfl⟩
    exact ⟨e, he, rfl, rfl⟩
  · rintro ⟨e, he, h1, h2⟩
    refine ⟨e, he, ?_⟩
    cases p
    simp_all

/-- The row the detector found in the top-3 prefix carries the
submitter's recomputed best score (usernames being injective ties the
username match back to the identity key). -/
theorem top3_entry_best {l' : List ScoreEvent} {users : List (String × Profile)}
    {u : UserRec} {p : String × Nat}
    (hinj : UsernamesInj users)
    (hu : ∃ pr, lookupUser users u.twitterId = some pr ∧ pr.username = u.username)
    (hp : entryForP u.username (pairsOf (top3 l' users)) = some p) :
    p.2 = bestScore l' u.twitterId := by
  rcases hu with ⟨pr, hpr, hprname⟩
  rcases entryForP_some hp with ⟨hmem, hpname⟩
  rcases mem_pairsOf.mp hmem with ⟨e, he3, hename, hescore⟩
  have heL : e ∈ leaderboardAll l' users := List.take_subset 3 _ he3
  rcases mem_leaderboardAll.mp heL with ⟨-, helook, hebest⟩
  have hid : e.twitterId = u.twitterId :=
    lookup_inj hinj helook hpr (by simp [hename, hpname, hprname])
  rw [← hescore, hebest, hid]

theorem rank_le_three (uname : String) (l' : List ScoreEvent)
    (users : List (String × Profile)) :
    rankOfP uname (pairsOf (top3 l' users)) ≤ 3 := by
  refine le_trans (rankOfP_le_length uname _) ?_
  unfold pairsOf top3
  rw [List.length_map, List.length_take]
  exact min_le_left 3 _

/-- The detector fires iff the submitter sits in the recomputed top-3
prefix and their recomputed best equals the submitted value. -/
theorem decideAnnounce_iff {l' : List ScoreEvent} {users : List (String × Profile)}
    {u : UserRec} {S : Nat}
    (hinj : UsernamesInj users)
    (hu : ∃ pr, lookupUser users u.twitterId = some pr ∧ pr.username = u.username) :
    decideAnnounce (pairsOf (top3 l' users)) u.username S = true ↔
      1 ≤ rankOfP u.username (pairsOf (top3 l' users)) ∧
      rankOfP u.username (pairsOf (top3 l' users)) ≤ 3 ∧
      bestScore l' u.twitterId = S := by
  unfold decideAnnounce
  cases hp : entryForP u.username (pairsOf (top3 l' users)) with
  | none =>
    have hzero : rankOfP u.username (pairsOf (top3 l' users)) = 0 :=
      (rankOfP_eq_zero_iff _ _).mpr hp
    simp [hzero]
  | some p =>
    have hnz : rankOfP u.username (pairsOf (top3 l' users)) ≠ 0 := by
      intro hz
      rw [(rankOfP_eq_zero_iff _ _).mp hz] at hp
      cases hp
    have hbest : p.2 = bestScore l' u.twitterId := top3_entry_best hinj hu hp
    simp only [Bool.and_eq_true, decide_eq_true_eq, beq_iff_eq]
    constructor
    · rintro ⟨⟨h1, h3⟩, hps⟩
      exact ⟨h1, h3, by rw [← hbest, hps]⟩
    · rintro ⟨h1, h3, hS⟩
      exact ⟨⟨h1, h3⟩, by rw [hbest, hS]⟩

/-! ### Branch lemmas for the submission handlers -/

theorem submitScore_pos {st : ServerState} {u : UserRec} {S : Nat}
    (hd : decideAnnounce (pairsOf (top3 (st.scores ++ [⟨u.twitterId, S⟩]) st.users))
            u.username S = true) :
    submitScore st (some u) S =
      (SubmitResult.success,
       { st with
           scores := st.scores ++ [⟨u.twitterId, S⟩],
           messages := st.messages ++
             [⟨"SYSTEM", mkAnnouncement (rankOfP u.username
               (pairsOf (top3 (st.scores ++ [⟨u.twitterId, S⟩]) st.users))) u.username S⟩],
           emitted := st.emitted ++
             [⟨"SYSTEM", mkAnnouncement (rankOfP u.username
               (pairsOf (top3 (st.scores ++ [⟨u.twitterId, S⟩]) st.users))) u.username S⟩] },
       [Op.appendScore ⟨u.twitterId, S⟩,
        Op.appendMsg ⟨"SYSTEM", mkAnnouncement (rankOfP u.username
          (pairsOf (top3 (st.scores ++ [⟨u.twitterId, S⟩]) st.users))) u.username S⟩,
        Op.publish ⟨"SYSTEM", mkAnnouncement (rankOfP u.username
          (pairsOf (top3 (st.scores ++ [⟨u.twitterId, S⟩]) st.users))) u.username S⟩]) := by
  simp only [submitScore]
  rw [if_pos hd]

theorem submitScore_neg {st : ServerState} {u : UserRec} {S : Nat}
    (hd : ¬ decideAnnounce (pairsOf (top3 (st.scores ++ [⟨u.twitterId, S⟩]) st.users))
            u.username S = true) :
    submitScore st (some u) S =
      (SubmitResult.success, { st with scores := st.scores ++ [⟨u.twitterId, S⟩] },
       [Op.appendScore ⟨u.twitterId, S⟩]) := by
  simp only [submitScore]
  rw [if_neg hd]

/-! ### Claim C1: leaderboard computation -/

/-- C1: the full leaderboard is sorted descending by best score, lists
each identity at most once, carries exactly the Ledger identities that
have a directory profile, gives each its maximum submitted scoreValue,
and the public view is its 20-entry truncation. -/
theorem leaderboard_correct (l : List ScoreEvent) (users : List (String × Profile)) :
    (leaderboardAll l users).Pairwise (fun a b => b.highScore ≤ a.highScore) ∧
    ((leaderboardAll l users).map Entry.twitterId).Nodup ∧
    (∀ e ∈ leaderboardAll l users,
       e.highScore = bestScore l e.twitterId ∧
       e.highScore ∈ scoresOf l e.twitterId ∧
       ∀ s ∈ scoresOf l e.twitterId, s ≤ e.highScore) ∧
    (∀ id : String,
       (∃ e ∈ leaderboardAll l users, e.twitterId = id) ↔
         id ∈ ledgerIds l ∧ (lookupUser users id).isSome) ∧
    getLeaderboard l users = (leaderboardAll l users).take 20 ∧
    (getLeaderboard l users).length ≤ 20 := by
  refine ⟨pairwise_leaderboardAll l users, nodup_leaderboardAll_ids l users, ?_, ?_, rfl, ?_⟩
  · intro e he
    rcases mem_leaderboardAll.mp he with ⟨hid, -, hbest⟩
    refine ⟨hbest, ?_, ?_⟩
    · rw [hbest]
      exact bestScore_mem hid
    · intro s hs
      rw [hbest]
      exact bestScore_ge hs
  · intro id
    constructor
    · rintro ⟨e, he, rfl⟩
      rcases mem_leaderboardAll.mp he with ⟨hid, hlook, -⟩
      exact ⟨hid, by rw [hlook]; rfl⟩
    · rintro ⟨hid, hsome⟩
      cases hpr : lookupUser users id with
      | none => rw [hpr] at hsome; cases hsome
      | some pr =>
        exact ⟨⟨id, pr.username, pr.photoUrl, pr.profileUrl, bestScore l id⟩,
          mem_leaderboardAll.mpr ⟨hid, by rw [hpr], rfl⟩, rfl⟩
  · unfold getLeaderboard
    rw [List.length_take]
    exact min_le_left _ _

/-- C1 witness: the iff part applied at a one-event Ledger. -/
theorem leaderboard_correct_witness :
    ("idA" ∈ ledgerIds [⟨"idA", 5⟩] ∧
      (lookupUser [("idA", ⟨"a", "p", "u"⟩)] "idA").isSome) ∧
    ∃ e ∈ leaderboardAll [⟨"idA", 5⟩] [("idA", ⟨"a", "p", "u"⟩)], e.twitterId = "idA" :=
  ⟨⟨by decide, by decide⟩,
   ((leaderboard_correct [⟨"idA", 5⟩] [("idA", ⟨"a", "p", "u"⟩)]).2.2.2.1 "idA").mpr
     ⟨by decide, by decide⟩⟩

/-! ### Claim C2: announcement iff top-3 rank and exact new best -/

/-- C2: an authenticated submission of S always succeeds and appends the
event; an announcement is raised iff the submitter's 1-based rank in the
recomputed top-3 prefix is in 1..3 and their recomputed best score is
exactly S, and then exactly one system message carrying that rank, the
submitter's label and S is logged and published. -/
theorem announce_iff_top3_and_new_best
    (st : ServerState) (u : UserRec) (S : Nat)
    (hinj : UsernamesInj st.users)
    (hu : ∃ pr, lookupUser st.users u.twitterId = some pr ∧ pr.username = u.username) :
    (submitScore st (some u) S).1 = SubmitResult.success ∧
    (submitScore st (some u) S).2.1.scores = st.scores ++ [⟨u.twitterId, S⟩] ∧
    ((1 ≤ rankOfP u.username (pairsOf (top3 (st.scores ++ [⟨u.twitterId, S⟩]) st.users)) ∧
      rankOfP u.username (pairsOf (top3 (st.scores ++ [⟨u.twitterId, S⟩]) st.users)) ≤ 3 ∧
      bestScore (st.scores ++ [⟨u.twitterId, S⟩]) u.twitterId = S) →
        (submitScore st (some u) S).2.1.messages = st.messages ++
          [⟨"SYSTEM", mkAnnouncement (rankOfP u.username
            (pairsOf (top3 (st.scores ++ [⟨u.twitterId, S⟩]) st.users))) u.username S⟩] ∧
        (submitScore st (some u) S).2.1.emitted = st.emitted ++
          [⟨"SYSTEM", mkAnnouncement (rankOfP u.username
            (pairsOf (top3 (st.scores ++ [⟨u.twitterId, S⟩]) st.users))) u.username S⟩]) ∧
    (¬ (1 ≤ rankOfP u.username (pairsOf (top3 (st.scores ++ [⟨u.twitterId, S⟩]) st.users)) ∧
        rankOfP u.username (pairsOf (top3 (st.scores ++ [⟨u.twitterId, S⟩]) st.users)) ≤ 3 ∧
        bestScore (st.scores ++ [⟨u.twitterId, S⟩]) u.twitterId = S) →
        (submitScore st (some u) S).2.1.messages = st.messages ∧
        (submitScore st (some u) S).2.1.emitted = st.emitted) := by
  by_cases hd : decideAnnounce
      (pairsOf (top3 (st.scores ++ [⟨u.twitterId, S⟩]) st.users)) u.username S = true
  · rw [submitScore_pos hd]
    refine ⟨rfl, rfl, fun _ => ⟨rfl, rfl⟩, fun hn => ?_⟩
    exact absurd ((decideAnnounce_iff hinj hu).mp hd) hn
  · rw [submitScore_neg hd]
    refine ⟨rfl, rfl, fun hH => ?_, fun _ => ⟨rfl, rfl⟩⟩
    exact absurd ((decideAnnounce_iff hinj hu).mpr hH) hd

/-- C2 witness: a first submission into an empty Ledger takes rank 1 and
is announced. -/
theorem announce_iff_top3_and_new_best_witness :
    (UsernamesInj [("id1", ⟨"alice", "p", "u"⟩)] ∧
      ∃ pr, lookupUser [("id1", ⟨"alice", "p", "u"⟩)] "id1" = some pr ∧
        pr.username = "alice") ∧
    (submitScore ⟨[("id1", ⟨"alice", "p", "u"⟩)], [], [], []⟩
        (some ⟨"id1", "alice"⟩) 10).2.1.messages =
      [⟨"SYSTEM", mkAnnouncement 1 "alice" 10⟩] := by
  refine ⟨⟨by decide, ⟨⟨"alice", "p", "u"⟩, by decide, rfl⟩⟩, ?_⟩
  have h := (announce_iff_top3_and_new_best
      ⟨[("id1", ⟨"alice", "p", "u"⟩)], [], [], []⟩ ⟨"id1", "alice"⟩ 10
      (by decide) ⟨⟨"alice", "p", "u"⟩, by decide, rfl⟩).2.2.1
      ⟨by decide, by decide, by decide⟩
  exact h.1

/-! ### Claim C6: a lower-than-best submission never announces -/

/-- C6: submitting strictly below the identity's existing best never
raises an announcement (even from a currently top-3 identity): the chat
log and the broadcast stream are unchanged and the submission succeeds. -/
theorem lower_score_no_announcement
    (st : ServerState) (u : UserRec) (S : Nat)
    (hinj : UsernamesInj st.users)
    (hu : ∃ pr, lookupUser st.users u.twitterId = some pr ∧ pr.username = u.username)
    (hlow : S < bestScore st.scores u.twitterId) :
    (submitScore st (some u) S).1 = SubmitResult.success ∧
    (submitScore st (some u) S).2.1.scores = st.scores ++ [⟨u.twitterId, S⟩] ∧
    (submitScore st (some u) S).2.1.messages = st.messages ∧
    (submitScore st (some u) S).2.1.emitted = st.emitted := by
  have hne : bestScore (st.scores ++ [⟨u.twitterId, S⟩]) u.twitterId ≠ S := by
    rw [bestScore_append_same, Nat.max_eq_left (le_of_lt hlow)]
    omega
  have hd : ¬ decideAnnounce
      (pairsOf (top3 (st.scores ++ [⟨u.twitterId, S⟩]) st.users)) u.username S = true := by
    intro hd
    exact hne ((decideAnnounce_iff hinj hu).mp hd).2.2
  rw [submitScore_neg hd]
  exact ⟨rfl, rfl, rfl, rfl⟩

/-- C6 witness: alice holds best 10 at rank 1 and submits 5: nothing is
announced. -/
theorem lower_score_no_announcement_witness :
    (UsernamesInj [("id1", ⟨"alice", "p", "u"⟩)] ∧
      (∃ pr, lookupUser [("id1", ⟨"alice", "p", "u"⟩)] "id1" = some pr ∧
        pr.username = "alice") ∧
      5 < bestScore [⟨"id1", 10⟩] "id1") ∧
    (submitScore ⟨[("id1", ⟨"alice", "p", "u"⟩)], [⟨"id1", 10⟩], [], []⟩
        (some ⟨"id1", "alice"⟩) 5).2.1.messages = [] := by
  refine ⟨⟨by decide, ⟨⟨"alice", "p", "u"⟩, by decide, rfl⟩, by decide⟩, ?_⟩
  exact (lower_score_no_announcement
    ⟨[("id1", ⟨"alice", "p", "u"⟩)], [⟨"id1", 10⟩], [], []⟩ ⟨"id1", "alice"⟩ 5
    (by decide) ⟨⟨"alice", "p", "u"⟩, by decide, rfl⟩ (by decide)).2.2.1

/-! ### Claim C10: an equal-to-best submission re-announces -/

/-- C10 (implicit in the source): the detector compares the recomputed
best for equality with the submitted value, so resubmitting exactly the
current best from a top-3 position raises a further announcement. -/
theorem duplicate_best_retriggers
    (st : ServerState) (u : UserRec) (S : Nat)
    (hinj : UsernamesInj st.users)
    (hu : ∃ pr, lookupUser st.users u.twitterId = some pr ∧ pr.username = u.username)
    (hbest : bestScore st.scores u.twitterId = S)
    (hrank : 1 ≤ rankOfP u.username
               (pairsOf (top3 (st.scores ++ [⟨u.twitterId, S⟩]) st.users)) ∧
             rankOfP u.username
               (pairsOf (top3 (st.scores ++ [⟨u.twitterId, S⟩]) st.users)) ≤ 3) :
    (submitScore st (some u) S).2.1.messages = st.messages ++
      [⟨"SYSTEM", mkAnnouncement (rankOfP u.username
        (pairsOf (top3 (st.scores ++ [⟨u.twitterId, S⟩]) st.users))) u.username S⟩] ∧
    (submitScore st (some u) S).2.1.emitted = st.emitted ++
      [⟨"SYSTEM", mkAnnouncement (rankOfP u.username
        (pairsOf (top3 (st.scores ++ [⟨u.twitterId, S⟩]) st.users))) u.username S⟩] := by
  have hbest' : bestScore (st.scores ++ [⟨u.twitterId, S⟩]) u.twitterId = S := by
    rw [bestScore_append_same, hbest, Nat.max_self]
  have hd : decideAnnounce
      (pairsOf (top3 (st.scores ++ [⟨u.twitterId, S⟩]) st.users)) u.username S = true :=
    (decideAnnounce_iff hinj hu).mpr ⟨hrank.1, hrank.2, hbest'⟩
  rw [submitScore_pos hd]
  exact ⟨rfl, rfl⟩

/-- C10 witness: alice, already rank 1 with best 10, resubmits 10 and is
announced again. -/
theorem duplicate_best_retriggers_witness :
    (UsernamesInj [("id1", ⟨"alice", "p", "u"⟩)] ∧
      (∃ pr, lookupUser [("id1", ⟨"alice", "p", "u"⟩)] "id1" = some pr ∧
        pr.username = "alice") ∧
      bestScore [⟨"id1", 10⟩] "id1" = 10 ∧
      1 ≤ rankOfP "alice"
        (pairsOf (top3 ([⟨"id1", 10⟩] ++ [⟨"id1", 10⟩]) [("id1", ⟨"alice", "p", "u"⟩)])) ∧
      rankOfP "alice"
        (pairsOf (top3 ([⟨"id1", 10⟩] ++ [⟨"id1", 10⟩]) [("id1", ⟨"alice", "p", "u"⟩)])) ≤ 3) ∧
    (submitScore ⟨[("id1", ⟨"alice", "p", "u"⟩)], [⟨"id1", 10⟩], [], []⟩
        (some ⟨"id1", "alice"⟩) 10).2.1.messages =
      [⟨"SYSTEM", mkAnnouncement 1 "alice" 10⟩] := by
  refine ⟨⟨by decide, ⟨⟨"alice", "p", "u"⟩, by decide, rfl⟩, by decide, by decide, by decide⟩, ?_⟩
  exact (duplicate_best_retriggers
    ⟨[("id1", ⟨"alice", "p", "u"⟩)], [⟨"id1", 10⟩], [], []⟩ ⟨"id1", "alice"⟩ 10
    (by decide) ⟨⟨"alice", "p", "u"⟩, by decide, rfl⟩ (by decide)
    ⟨by decide, by decide⟩).1

/-! ### Claim C7: unauthenticated submissions have no side effects -/

/-- C7: a submission without an authenticated identity is rejected as
unauthenticated and performs no operation at all, in both the sqlite and
the mongo variant: the state is untouched and the operation trace is
empty (no Ledger append, no log append, no broadcast). -/
theorem unauthenticated_no_side_effects (st : ServerState) (S : Nat)
    (appendOk checkOk logOk : Bool) :
    submitScore st none S = (SubmitResult.unauthenticated, st, []) ∧
    submitScoreMongo st none S appendOk checkOk logOk =
      (SubmitResult.unauthenticated, st, []) :=
  ⟨rfl, rfl⟩

/-! ### Claim C5: append-then-publish order on the announcement path

The mongo variant awaits the chat-log insert and throws on failure, so
it never publishes an unlogged announcement (trace-shape lemmas below).
The supabase and sqlite variants, however, publish even when the log
append fails — see the claim theorem after the lemmas. -/

theorem submitScore_trace_cases (st : ServerState) (auth : Option UserRec) (S : Nat) :
    (submitScore st auth S).2.2 = [] ∨
    (∃ e, (submitScore st auth S).2.2 = [Op.appendScore e]) ∨
    (∃ e a, (submitScore st auth S).2.2 =
      [Op.appendScore e, Op.appendMsg a, Op.publish a]) := by
  cases auth with
  | none => exact Or.inl rfl
  | some u =>
    by_cases hd : decideAnnounce
        (pairsOf (top3 (st.scores ++ [⟨u.twitterId, S⟩]) st.users)) u.username S = true
    · rw [submitScore_pos hd]
      exact Or.inr (Or.inr ⟨_, _, rfl⟩)
    · rw [submitScore_neg hd]
      exact Or.inr (Or.inl ⟨_, rfl⟩)

theorem submitScoreMongo_trace_cases (st : ServerState) (auth : Option UserRec) (S : Nat)
    (appendOk checkOk logOk : Bool) :
    (submitScoreMongo st auth S appendOk checkOk logOk).2.2 = [] ∨
    (∃ e, (submitScoreMongo st auth S appendOk checkOk logOk).2.2 = [Op.appendScore e]) ∨
    (∃ e a, (submitScoreMongo st auth S appendOk checkOk logOk).2.2 =
      [Op.appendScore e, Op.appendMsg a, Op.publish a]) := by
  cases auth with
  | none => exact Or.inl rfl
  | some u =>
    simp only [submitScoreMongo]
    by_cases ha : appendOk = false
    · rw [if_pos ha]
      exact Or.inl rfl
    · rw [if_neg ha]
      by_cases hc : checkOk = false
      · rw [if_pos hc]
        exact Or.inr (Or.inl ⟨_, rfl⟩)
      · rw [if_neg hc]
        by_cases hd : decideAnnounce
            (pairsOf (mongoTop3 (st.scores ++ [⟨u.twitterId, S⟩]) st.users))
            u.username S = true
        · rw [if_pos hd]
          by_cases hl : logOk = false
          · rw [if_pos hl]
            exact Or.inr (Or.inl ⟨_, rfl⟩)
          · rw [if_neg hl]
            exact Or.inr (Or.inr ⟨_, _, rfl⟩)
        · rw [if_neg hd]
          exact Or.inr (Or.inl ⟨_, rfl⟩)

theorem publish_preceded_by_append {tr : List Op}
    (h : tr = [] ∨ (∃ e, tr = [Op.appendScore e]) ∨
         (∃ e a, tr = [Op.appendScore e, Op.appendMsg a, Op.publish a]))
    (m : Msg) (j : Nat) (hj : tr[j]? = some (Op.publish m)) :
    ∃ i, i < j ∧ tr[i]? = some (Op.appendMsg m) := by
  rcases h with rfl | ⟨e, rfl⟩ | ⟨e, a, rfl⟩
  · rw [List.getElem?_nil] at hj
    cases hj
  · match j with
    | 0 => simp at hj
    | n + 1 => simp at hj
  · match j with
    | 0 => simp at hj
    | 1 => simp at hj
    | 2 =>
      simp only [List.getElem?_cons_succ, List.getElem?_cons_zero, Option.some.injEq] at hj
      refine ⟨1, by omega, ?_⟩
      simp only [List.getElem?_cons_succ, List.getElem?_cons_zero, Option.some.injEq]
      cases hj
      rfl
    | n + 3 => simp at hj

/-- C5 (divergence witness): when the chat-log insert of a triggered
announcement fails, the supabase variant (its `error` object is never
checked) and the sqlite variant (fire-and-forget `sysStmt.run`) still
publish the announcement, which is then never durably logged: the trace
holds a publish with no chat-log append, and the final log is empty
while the broadcast stream carries the message.  The mongo variant
complies: its awaited insert throws before the emit.  Evaluated at
alice's announced rank-1 submission of 10 with the log append failing. -/
theorem publish_without_log_on_log_failure :
    submitScoreSupa ⟨[("id1", ⟨"alice", "p", "u"⟩)], [], [], []⟩
        (some ⟨"id1", "alice"⟩) 10 true true false =
      (SubmitResult.success,
       ⟨[("id1", ⟨"alice", "p", "u"⟩)], [⟨"id1", 10⟩], [],
        [⟨"SYSTEM", mkAnnouncement 1 "alice" 10⟩]⟩,
       [Op.appendScore ⟨"id1", 10⟩,
        Op.publish ⟨"SYSTEM", mkAnnouncement 1 "alice" 10⟩]) ∧
    submitScoreSqlite ⟨[("id1", ⟨"alice", "p", "u"⟩)], [], [], []⟩
        (some ⟨"id1", "alice"⟩) 10 true true false =
      (SubmitResult.success,
       ⟨[("id1", ⟨"alice", "p", "u"⟩)], [⟨"id1", 10⟩], [],
        [⟨"SYSTEM", mkAnnouncement 1 "alice" 10⟩]⟩,
       [Op.appendScore ⟨"id1", 10⟩,
        Op.publish ⟨"SYSTEM", mkAnnouncement 1 "alice" 10⟩]) ∧
    submitScoreMongo ⟨[("id1", ⟨"alice", "p", "u"⟩)], [], [], []⟩
        (some ⟨"id1", "alice"⟩) 10 true true false =
      (SubmitResult.storageError,
       ⟨[("id1", ⟨"alice", "p", "u"⟩)], [⟨"id1", 10⟩], [], []⟩,
       [Op.appendScore ⟨"id1", 10⟩]) :=
  ⟨rfl, rfl, rfl⟩

/-! ### Claim C3: the mongo variant fails the failure policy -/

/-- C3 (divergence witness, mongo variant): the whole handler sits in
one try/catch, so when the top-3 aggregation fails after the insert
succeeded the submitter is answered with a storage error although the
score event is durably in the Ledger (trace contains the append). -/
theorem mongo_error_despite_successful_append :
    submitScoreMongo ⟨[("id1", ⟨"alice", "p", "u"⟩)], [], [], []⟩
        (some ⟨"id1", "alice"⟩) 5 true false true =
      (SubmitResult.storageError,
       ⟨[("id1", ⟨"alice", "p", "u"⟩)], [⟨"id1", 5⟩], [], []⟩,
       [Op.appendScore ⟨"id1", 5⟩]) := by
  rfl

/-! ### Claim C8: replay-on-connect -/

/-- C8: replay-on-connect delivers the last 50 logged messages exactly,
in insertion order (a tail segment of the log, hence at most 50, oldest
first, no reordering), and with exactly 3 messages logged it delivers
exactly those 3. -/
theorem replay_last50_in_order (log : List Msg) :
    (replayList log).length ≤ 50 ∧
    replayList log = log.drop (log.length - 50) ∧
    (log.length = 3 → replayList log = log) := by
  have hdrop : replayList log = log.drop (log.length - 50) := by
    unfold replayList
    rw [List.take_reverse, List.reverse_reverse]
  refine ⟨?_, hdrop, ?_⟩
  · rw [hdrop, List.length_drop]
    omega
  · intro h3
    rw [hdrop, h3]
    simp

/-- C8 witness: a 3-message log is replayed whole, oldest first. -/
theorem replay_last50_in_order_witness :
    ([⟨"x", "1"⟩, ⟨"y", "2"⟩, ⟨"z", "3"⟩] : List Msg).length = 3 ∧
    replayList [⟨"x", "1"⟩, ⟨"y", "2"⟩, ⟨"z", "3"⟩] =
      [⟨"x", "1"⟩, ⟨"y", "2"⟩, ⟨"z", "3"⟩] :=
  ⟨rfl, (replay_last50_in_order [⟨"x", "1"⟩, ⟨"y", "2"⟩, ⟨"z", "3"⟩]).2.2 rfl⟩

/-! ### Claim C9: cross-backend equivalence of the ranking pipelines -/

theorem foldr_max_eq_of_mem_iff {l1 l2 : List Nat} (h : ∀ s, s ∈ l1 ↔ s ∈ l2) :
    l1.foldr max 0 = l2.foldr max 0 := by
  cases hl1 : l1 with
  | nil =>
    cases hl2 : l2 with
    | nil => rfl
    | cons y ys =>
      exfalso
      have hy : y ∈ l1 := (h y).mpr (by rw [hl2]; exact List.mem_cons_self _ _)
      rw [hl1] at hy
      cases hy
  | cons x xs =>
    have h1ne : l1 ≠ [] := by rw [hl1]; simp
    have h2ne : l2 ≠ [] := by
      intro h2
      have hx : x ∈ l2 := (h x).mp (by rw [hl1]; exact List.mem_cons_self _ _)
      rw [h2] at hx
      cases hx
    rw [← hl1]
    apply Nat.le_antisymm
    · exact foldr_max_ge l2 _ ((h _).mp (foldr_max_mem l1 h1ne))
    · exact foldr_max_ge l1 _ ((h _).mpr (foldr_max_mem l2 h2ne))

/-- `$max` over the pre-sorted stream equals `MAX` over the raw Ledger. -/
theorem bestScore_sort (l : List ScoreEvent) (id : String) :
    bestScore (sortByKeyDesc ScoreEvent.score l) id = bestScore l id := by
  unfold bestScore
  apply foldr_max_eq_of_mem_iff
  intro s
  rw [mem_scoresOf, mem_scoresOf]
  constructor
  · rintro ⟨e, he, h1, h2⟩
    exact ⟨e, (mem_sortByKeyDesc _ _ _).mp he, h1, h2⟩
  · rintro ⟨e, he, h1, h2⟩
    exact ⟨e, (mem_sortByKeyDesc _ _ _).mpr he, h1, h2⟩

theorem filterMap_ext_mem {f g : α → Option β} {l : List α} (h : ∀ a ∈ l, f a = g a) :
    l.filterMap f = l.filterMap g := by
  induction l with
  | nil => rfl
  | cons a as ih =>
    rw [List.filterMap_cons, List.filterMap_cons,
      h a (List.mem_cons_self _ _), ih (fun b hb => h b (List.mem_cons_of_mem _ hb))]

theorem mongo_ids_perm (l : List ScoreEvent) :
    List.Perm (dedupKeep ((sortByKeyDesc ScoreEvent.score l).map ScoreEvent.twitterId))
      (ledgerIds l) := by
  apply (List.perm_ext_iff_of_nodup (nodup_dedupKeep _) (nodup_dedupKeep _)).mpr
  intro id
  rw [mem_dedupKeep, mem_dedupKeep, List.mem_map, List.mem_map]
  constructor
  · rintro ⟨e, he, h⟩
    exact ⟨e, (mem_sortByKeyDesc _ _ _).mp he, h⟩
  · rintro ⟨e, he, h⟩
    exact ⟨e, (mem_sortByKeyDesc _ _ _).mpr he, h⟩

/-- The mongo pipeline produces the sqlite rows up to tie order. -/
theorem mongo_perm_sqlite (l : List ScoreEvent) (users : List (String × Profile)) :
    List.Perm (mongoLeaderboardAll l users) (leaderboardAll l users) := by
  have hgroup : List.Perm (mongoGrouped l users) (groupedEntries l users) := by
    have hbody : mongoGrouped l users =
        (dedupKeep ((sortByKeyDesc ScoreEvent.score l).map ScoreEvent.twitterId)).filterMap
          (fun id =>
            (lookupUser users id).map (fun pr =>
              { twitterId := id, username := pr.username, photoUrl := pr.photoUrl,
                profileUrl := pr.profileUrl, highScore := bestScore l id })) := by
      unfold mongoGrouped
      apply filterMap_ext_mem
      intro id _
      rw [bestScore_sort]
    rw [hbody]
    unfold groupedEntries
    exact List.Perm.filterMap _ (mongo_ids_perm l)
  exact ((perm_sortByKeyDesc Entry.highScore (mongoGrouped l users)).trans hgroup).trans
    (perm_sortByKeyDesc Entry.highScore (groupedEntries l users)).symm

theorem pairwise_mongoLeaderboardAll (l : List ScoreEvent) (users : List (String × Profile)) :
    (mongoLeaderboardAll l users).Pairwise (fun a b => b.highScore ≤ a.highScore) :=
  pairwise_sortByKeyDesc Entry.highScore (mongoGrouped l users)

/-- Every score references a directory row (the spec's write-time
referential integrity; without it the supabase variant would crash on a
null join). -/
abbrev RefIntact (l : List ScoreEvent) (users : List (String × Profile)) : Prop :=
  ∀ e ∈ l, (lookupUser users e.twitterId).isSome = true

theorem mem_pairsOfS {l : List SEntry} {p : String × Nat} :
    p ∈ pairsOfS l ↔ ∃ x ∈ l, x.username = p.1 ∧ x.highScore = p.2 := by
  unfold pairsOfS
  rw [List.mem_map]
  constructor
  · rintro ⟨x, hx, rfl⟩
    exact ⟨x, hx, rfl, rfl⟩
  · rintro ⟨x, hx, h1, h2⟩
    refine ⟨x, hx, ?_⟩
    cases p
    simp_all

theorem mem_supaRows {l : List ScoreEvent} {users : List (String × Profile)}
    {s : Nat} {pr : Profile} :
    (s, pr) ∈ supaRows l users ↔
      ∃ e ∈ l, e.score = s ∧ lookupUser users e.twitterId = some pr := by
  unfold supaRows
  rw [List.mem_filterMap]
  constructor
  · rintro ⟨e, he, hmap⟩
    cases hlk : lookupUser users e.twitterId with
    | none => rw [hlk] at hmap; cases hmap
    | some pr' =>
      rw [hlk] at hmap
      simp only [Option.map_some', Option.some.injEq, Prod.mk.injEq] at hmap
      obtain ⟨h1, h2⟩ := hmap
      subst h1
      subst h2
      exact ⟨e, (mem_sortByKeyDesc _ _ _).mp he, rfl, hlk⟩
  · rintro ⟨e, he, hs, hlk⟩
    refine ⟨e, (mem_sortByKeyDesc _ _ _).mpr he, ?_⟩
    rw [hlk, Option.map_some', hs]

theorem pairwise_supaRows (l : List ScoreEvent) (users : List (String × Profile)) :
    (supaRows l users).Pairwise (fun a b => b.1 ≤ a.1) := by
  unfold supaRows
  refine List.Pairwise.filterMap _ ?_ (pairwise_sortByKeyDesc ScoreEvent.score l)
  intro a b hR c hc d hd
  cases hla : lookupUser users a.twitterId with
  | none => rw [hla] at hc; cases hc
  | some pra =>
    rw [hla] at hc
    cases hlb : lookupUser users b.twitterId with
    | none => rw [hlb] at hd; cases hd
    | some prb =>
      rw [hlb] at hd
      simp only [Option.map_some', Option.mem_def, Option.some.injEq] at hc hd
      subst hc
      subst hd
      exact hR

theorem supaDedup_username_not_seen :
    ∀ (rows : List (Nat × Profile)) (seen : List String) (x : SEntry),
      x ∈ supaDedup rows seen → x.username ∉ seen := by
  intro rows
  induction rows with
  | nil =>
    intro seen x hx
    cases hx
  | cons row rest ih =>
    intro seen x hx
    obtain ⟨s, pr⟩ := row
    simp only [supaDedup] at hx
    by_cases hseen : pr.username ∈ seen
    · rw [if_pos hseen] at hx
      exact ih seen x hx
    · rw [if_neg hseen] at hx
      rcases List.mem_cons.mp hx with rfl | hx
      · exact hseen
      · intro hmem
        exact ih (pr.username :: seen) x hx (List.mem_cons_of_mem _ hmem)

theorem supaDedup_nodup_usernames :
    ∀ (rows : List (Nat × Profile)) (seen : List String),
      ((supaDedup rows seen).map SEntry.username).Nodup := by
  intro rows
  induction rows with
  | nil =>
    intro seen
    simp [supaDedup]
  | cons row rest ih =>
    intro seen
    obtain ⟨s, pr⟩ := row
    simp only [supaDedup]
    by_cases hseen : pr.username ∈ seen
    · rw [if_pos hseen]
      exact ih seen
    · rw [if_neg hseen]
      rw [List.map_cons]
      refine List.Pairwise.cons ?_ (ih _)
      intro y hy
      rcases List.mem_map.mp hy with ⟨x, hx, rfl⟩
      intro he
      exact absurd
        (show x.username ∈ pr.username :: seen by
          rw [← he]; exact List.mem_cons_self _ _)
        (supaDedup_username_not_seen rest _ x hx)

theorem supaDedup_sound :
    ∀ (rows : List (Nat × Profile)) (seen : List String) (x : SEntry),
      x ∈ supaDedup rows seen →
      ∃ pr : Profile, (x.highScore, pr) ∈ rows ∧ pr.username = x.username ∧
        pr.photoUrl = x.photoUrl ∧ pr.profileUrl = x.profileUrl := by
  intro rows
  induction rows with
  | nil =>
    intro seen x hx
    cases hx
  | cons row rest ih =>
    intro seen x hx
    obtain ⟨s, pr⟩ := row
    simp only [supaDedup] at hx
    by_cases hseen : pr.username ∈ seen
    · rw [if_pos hseen] at hx
      rcases ih seen x hx with ⟨pr', hmem, h⟩
      exact ⟨pr', List.mem_cons_of_mem _ hmem, h⟩
    · rw [if_neg hseen] at hx
      rcases List.mem_cons.mp hx with rfl | hx
      · exact ⟨pr, List.mem_cons_self _ _, rfl, rfl, rfl⟩
      · rcases ih _ x hx with ⟨pr', hmem, h⟩
        exact ⟨pr', List.mem_cons_of_mem _ hmem, h⟩

theorem supaDedup_max :
    ∀ (rows : List (Nat × Profile)) (seen : List String),
      rows.Pairwise (fun a b => b.1 ≤ a.1) →
      ∀ x ∈ supaDedup rows seen, ∀ row ∈ rows,
        row.2.username = x.username → row.1 ≤ x.highScore := by
  intro rows
  induction rows with
  | nil =>
    intro seen _ x hx
    cases hx
  | cons hd rest ih =>
    intro seen hpw x hx row hrow hname
    obtain ⟨s, pr⟩ := hd
    rcases List.pairwise_cons.mp hpw with ⟨hhead, hrest⟩
    simp only [supaDedup] at hx
    by_cases hseen : pr.username ∈ seen
    · rw [if_pos hseen] at hx
      rcases List.mem_cons.mp hrow with rfl | hrow
      · exact absurd (hname ▸ hseen) (supaDedup_username_not_seen rest seen x hx)
      · exact ih seen hrest x hx row hrow hname
    · rw [if_neg hseen] at hx
      rcases List.mem_cons.mp hx with rfl | hx
      · rcases List.mem_cons.mp hrow with rfl | hrow
        · exact le_refl _
        · exact hhead row hrow
      · rcases List.mem_cons.mp hrow with rfl | hrow
        · exact absurd
            (show x.username ∈ pr.username :: seen by
              rw [← hname]; exact List.mem_cons_self _ _)
            (supaDedup_username_not_seen rest _ x hx)
        · exact ih _ hrest x hx row hrow hname

theorem supaDedup_complete :
    ∀ (rows : List (Nat × Profile)) (seen : List String) (row : Nat × Profile),
      row ∈ rows → row.2.username ∉ seen →
      ∃ x ∈ supaDedup rows seen, x.username = row.2.username := by
  intro rows
  induction rows with
  | nil =>
    intro seen row hrow
    cases hrow
  | cons hd rest ih =>
    intro seen row hrow hnot
    obtain ⟨s, pr⟩ := hd
    simp only [supaDedup]
    by_cases hseen : pr.username ∈ seen
    · rw [if_pos hseen]
      rcases List.mem_cons.mp hrow with rfl | hrow
      · exact absurd hseen hnot
      · exact ih seen row hrow hnot
    · rw [if_neg hseen]
      by_cases heq : row.2.username = pr.username
      · exact ⟨⟨pr.username, pr.photoUrl, pr.profileUrl, s⟩,
          List.mem_cons_self _ _, heq.symm⟩
      · rcases List.mem_cons.mp hrow with rfl | hrow
        · exact absurd rfl heq
        · have hnot' : row.2.username ∉ pr.username :: seen := by
            intro hmem
            rcases List.mem_cons.mp hmem with h | h
            · exact heq h
            · exact hnot h
          rcases ih (pr.username :: seen) row hrow hnot' with ⟨x, hx, hxe⟩
          exact ⟨x, List.mem_cons_of_mem _ hx, hxe⟩

theorem supaDedup_pairs_sublist :
    ∀ (rows : List (Nat × Profile)) (seen : List String),
      List.Sublist (pairsOfS (supaDedup rows seen))
        (rows.map (fun r => (r.2.username, r.1))) := by
  intro rows
  induction rows with
  | nil =>
    intro seen
    simp [supaDedup, pairsOfS]
  | cons hd rest ih =>
    intro seen
    obtain ⟨s, pr⟩ := hd
    simp only [supaDedup, List.map_cons]
    by_cases hseen : pr.username ∈ seen
    · rw [if_pos hseen]
      exact (ih seen).cons _
    · rw [if_neg hseen]
      exact (ih _).cons₂ _

theorem pairwise_supaBoardAll (l : List ScoreEvent) (users : List (String × Profile)) :
    (supaBoardAll l users).Pairwise (fun a b => b.highScore ≤ a.highScore) := by
  have hmap : ((supaRows l users).map (fun r => (r.2.username, r.1))).Pairwise
      (fun p q => q.2 ≤ p.2) := by
    rw [List.pairwise_map]
    exact (pairwise_supaRows l users).imp (fun h => h)
  have hpairs : (pairsOfS (supaBoardAll l users)).Pairwise (fun p q => q.2 ≤ p.2) :=
    List.Pairwise.sublist (supaDedup_pairs_sublist (supaRows l users) []) hmap
  unfold pairsOfS at hpairs
  rw [List.pairwise_map] at hpairs
  exact hpairs

theorem supa_mem_pairs {l : List ScoreEvent} {users : List (String × Profile)}
    (hinj : UsernamesInj users) {w : String} {h : Nat} :
    (w, h) ∈ pairsOfS (supaBoardAll l users) ↔
      (w, h) ∈ pairsOf (leaderboardAll l users) := by
  constructor
  · intro hmem
    rcases mem_pairsOfS.mp hmem with ⟨x, hx, hxw, hxh⟩
    rcases supaDedup_sound _ _ x hx with ⟨pr, hrow, hpru, -, -⟩
    rcases mem_supaRows.mp hrow with ⟨e, hel, hesc, helk⟩
    have hub : ∀ s ∈ scoresOf l e.twitterId, s ≤ x.highScore := by
      intro s hs
      rcases mem_scoresOf.mp hs with ⟨e', he', htid, hsc⟩
      have hrow' : (s, pr) ∈ supaRows l users :=
        mem_supaRows.mpr ⟨e', he', hsc, by rw [htid]; exact helk⟩
      exact supaDedup_max _ [] (pairwise_supaRows l users) x hx (s, pr) hrow' hpru
    have hid : e.twitterId ∈ ledgerIds l := mem_ledgerIds.mpr ⟨e, hel, rfl⟩
    have hbest : bestScore l e.twitterId = x.highScore :=
      le_antisymm (hub _ (bestScore_mem hid))
        (bestScore_ge (mem_scoresOf.mpr ⟨e, hel, rfl, hesc⟩))
    have hentry : (⟨e.twitterId, pr.username, pr.photoUrl, pr.profileUrl,
        bestScore l e.twitterId⟩ : Entry) ∈ leaderboardAll l users :=
      mem_leaderboardAll.mpr ⟨hid, by rw [helk], rfl⟩
    exact mem_pairsOf.mpr ⟨_, hentry, hpru.trans hxw, hbest.trans hxh⟩
  · intro hmem
    rcases mem_pairsOf.mp hmem with ⟨en, hen, henw, henh⟩
    rcases mem_leaderboardAll.mp hen with ⟨hid, hlook, hbest⟩
    rcases mem_ledgerIds.mp hid with ⟨ev, hevl, hevtid⟩
    have hrow : (ev.score, (⟨en.username, en.photoUrl, en.profileUrl⟩ : Profile)) ∈
        supaRows l users :=
      mem_supaRows.mpr ⟨ev, hevl, rfl, by rw [hevtid]; exact hlook⟩
    rcases supaDedup_complete (supaRows l users) [] _ hrow (by simp) with ⟨x, hx, hxname⟩
    rcases supaDedup_sound _ _ x hx with ⟨prX, hrowX, hprXu, -, -⟩
    rcases mem_supaRows.mp hrowX with ⟨e', he'l, he'sc, he'lk⟩
    have hidX : e'.twitterId = en.twitterId :=
      lookup_inj hinj he'lk hlook (by rw [hprXu]; exact hxname)
    have hxle : x.highScore ≤ bestScore l en.twitterId :=
      bestScore_ge (mem_scoresOf.mpr ⟨e', he'l, hidX, he'sc⟩)
    have hxge : bestScore l en.twitterId ≤ x.highScore := by
      rcases mem_scoresOf.mp (bestScore_mem hid) with ⟨eb, hebl, hebtid, hebsc⟩
      have hrowB : (bestScore l en.twitterId,
          (⟨en.username, en.photoUrl, en.profileUrl⟩ : Profile)) ∈ supaRows l users :=
        mem_supaRows.mpr ⟨eb, hebl, hebsc, by rw [hebtid]; exact hlook⟩
      exact supaDedup_max _ [] (pairwise_supaRows l users) x hx _ hrowB hxname.symm
    have hxh : x.highScore = h := by
      rw [le_antisymm hxle hxge, ← hbest, henh]
    exact mem_pairsOfS.mpr ⟨x, hx, by rw [hxname, henw], hxh⟩

theorem nodup_leaderboardAll_usernames (l : List ScoreEvent)
    (users : List (String × Profile)) (hinj : UsernamesInj users) :
    ((leaderboardAll l users).map Entry.username).Nodup := by
  have h1 : (leaderboardAll l users).Pairwise (fun a b => a.twitterId ≠ b.twitterId) :=
    List.pairwise_map.mp (nodup_leaderboardAll_ids l users)
  have h2 : (leaderboardAll l users).Pairwise (fun a b => a.username ≠ b.username) := by
    refine List.Pairwise.imp_of_mem ?_ h1
    intro a b ha hb hne heq
    rcases mem_leaderboardAll.mp ha with ⟨-, hla, -⟩
    rcases mem_leaderboardAll.mp hb with ⟨-, hlb, -⟩
    exact hne (lookup_inj hinj hla hlb heq)
  exact List.pairwise_map.mpr h2

theorem nodup_pairsOf_board (l : List ScoreEvent) (users : List (String × Profile))
    (hinj : UsernamesInj users) : (pairsOf (leaderboardAll l users)).Nodup := by
  apply List.Nodup.of_map Prod.fst
  rw [pairsOf, List.map_map]
  exact nodup_leaderboardAll_usernames l users hinj

theorem nodup_pairsOfS_supa (l : List ScoreEvent) (users : List (String × Profile)) :
    (pairsOfS (supaBoardAll l users)).Nodup := by
  apply List.Nodup.of_map Prod.fst
  rw [pairsOfS, List.map_map]
  exact supaDedup_nodup_usernames (supaRows l users) []

/-- The supabase JS post-processing produces the sqlite rows (projected
to username and best score) up to tie order. -/
theorem supa_perm_sqlite (l : List ScoreEvent) (users : List (String × Profile))
    (hinj : UsernamesInj users) :
    List.Perm (pairsOfS (supaBoardAll l users)) (pairsOf (leaderboardAll l users)) := by
  apply (List.perm_ext_iff_of_nodup (nodup_pairsOfS_supa l users)
    (nodup_pairsOf_board l users hinj)).mpr
  intro p
  obtain ⟨w, h⟩ := p
  exact supa_mem_pairs hinj

theorem eq_of_perm_pairwise_nodupkey {α : Type} (key : α → Nat) {l1 l2 : List α}
    (hp : List.Perm l1 l2)
    (h1 : l1.Pairwise (fun a b => key b ≤ key a))
    (h2 : l2.Pairwise (fun a b => key b ≤ key a))
    (hn : (l1.map key).Nodup) : l1 = l2 := by
  haveI : IsAntisymm α (fun a b => key b < key a) :=
    ⟨fun a b hab hba => absurd (lt_trans hab hba) (lt_irrefl _)⟩
  have hn2 : (l2.map key).Nodup := ((hp.map key).nodup_iff).mp hn
  have hk1 : l1.Pairwise (fun a b => key a ≠ key b) := List.pairwise_map.mp hn
  have hk2 : l2.Pairwise (fun a b => key a ≠ key b) := List.pairwise_map.mp hn2
  have hs1 : l1.Pairwise (fun a b => key b < key a) :=
    (h1.and hk1).imp (fun hab => lt_of_le_of_ne hab.1 (Ne.symm hab.2))
  have hs2 : l2.Pairwise (fun a b => key b < key a) :=
    (h2.and hk2).imp (fun hab => lt_of_le_of_ne hab.1 (Ne.symm hab.2))
  exact List.eq_of_perm_of_sorted hp hs1 hs2

/-- C9 (amended): with a username-injective, referentially intact
directory, the three backends compute leaderboards that agree as
multisets of rows — equal up to the engines' unspecified tie order,
each sorted descending by best score — and whenever the best scores are
pairwise distinct the boards coincide exactly and all three variants
make the same announcement decision for every submission. -/
theorem backends_equivalent (l : List ScoreEvent) (users : List (String × Profile))
    (hinj : UsernamesInj users) (_href : RefIntact l users) :
    List.Perm (mongoLeaderboardAll l users) (leaderboardAll l users) ∧
    List.Perm (pairsOfS (supaBoardAll l users)) (pairsOf (leaderboardAll l users)) ∧
    (leaderboardAll l users).Pairwise (fun a b => b.highScore ≤ a.highScore) ∧
    (mongoLeaderboardAll l users).Pairwise (fun a b => b.highScore ≤ a.highScore) ∧
    (supaBoardAll l users).Pairwise (fun a b => b.highScore ≤ a.highScore) ∧
    (((leaderboardAll l users).map Entry.highScore).Nodup →
      mongoLeaderboardAll l users = leaderboardAll l users ∧
      pairsOfS (supaBoardAll l users) = pairsOf (leaderboardAll l users) ∧
      ∀ (uname : String) (S : Nat),
        decideAnnounce (pairsOf (mongoTop3 l users)) uname S =
          decideAnnounce (pairsOf (top3 l users)) uname S ∧
        decideAnnounce (pairsOfS (supaTop3 l users)) uname S =
          decideAnnounce (pairsOf (top3 l users)) uname S) := by
  refine ⟨mongo_perm_sqlite l users, supa_perm_sqlite l users hinj,
    pairwise_leaderboardAll l users, pairwise_mongoLeaderboardAll l users,
    pairwise_supaBoardAll l users, ?_⟩
  intro hnd
  have hmeq : mongoLeaderboardAll l users = leaderboardAll l users := by
    apply eq_of_perm_pairwise_nodupkey Entry.highScore (mongo_perm_sqlite l users)
      (pairwise_mongoLeaderboardAll l users) (pairwise_leaderboardAll l users)
    exact ((mongo_perm_sqlite l users).map Entry.highScore).nodup_iff.mpr hnd
  have hseq : pairsOfS (supaBoardAll l users) = pairsOf (leaderboardAll l users) := by
    refine eq_of_perm_pairwise_nodupkey Prod.snd (supa_perm_sqlite l users hinj)
      ?_ ?_ ?_
    · unfold pairsOfS
      rw [List.pairwise_map]
      exact (pairwise_supaBoardAll l users).imp (fun h => h)
    · unfold pairsOf
      rw [List.pairwise_map]
      exact (pairwise_leaderboardAll l users).imp (fun h => h)
    · have hb : ((pairsOf (leaderboardAll l users)).map Prod.snd).Nodup := by
        rw [pairsOf, List.map_map]
        exact hnd
      exact (((supa_perm_sqlite l users hinj).map Prod.snd).nodup_iff).mpr hb
  refine ⟨hmeq, hseq, ?_⟩
  intro uname S
  constructor
  · unfold mongoTop3 top3
    rw [hmeq]
  · have h1 : pairsOfS (supaTop3 l users) = (pairsOfS (supaBoardAll l users)).take 3 := by
      unfold supaTop3 pairsOfS
      rw [List.map_take]
    have h2 : pairsOf (top3 l users) = (pairsOf (leaderboardAll l users)).take 3 := by
      unfold top3 pairsOf
      rw [List.map_take]
    rw [h1, h2, hseq]

/-- C9 witness: two identities with distinct bests: all three backends
produce the same board and make the same decisions. -/
theorem backends_equivalent_witness :
    (UsernamesInj [("idA", ⟨"a", "pa", "ua"⟩), ("idB", ⟨"b", "pb", "ub"⟩)] ∧
     RefIntact [⟨"idA", 5⟩, ⟨"idB", 10⟩]
       [("idA", ⟨"a", "pa", "ua"⟩), ("idB", ⟨"b", "pb", "ub"⟩)] ∧
     ((leaderboardAll [⟨"idA", 5⟩, ⟨"idB", 10⟩]
       [("idA", ⟨"a", "pa", "ua"⟩), ("idB", ⟨"b", "pb", "ub"⟩)]).map
         Entry.highScore).Nodup) ∧
    mongoLeaderboardAll [⟨"idA", 5⟩, ⟨"idB", 10⟩]
        [("idA", ⟨"a", "pa", "ua"⟩), ("idB", ⟨"b", "pb", "ub"⟩)] =
      leaderboardAll [⟨"idA", 5⟩, ⟨"idB", 10⟩]
        [("idA", ⟨"a", "pa", "ua"⟩), ("idB", ⟨"b", "pb", "ub"⟩)] :=
  ⟨⟨by decide, by decide, by decide⟩,
   ((backends_equivalent [⟨"idA", 5⟩, ⟨"idB", 10⟩]
       [("idA", ⟨"a", "pa", "ua"⟩), ("idB", ⟨"b", "pb", "ub"⟩)]
       (by decide) (by decide)).2.2.2.2.2 (by decide)).1⟩

/-- C9 counterexample: after a four-way tie at 10 (the submitter's
older event came first in the Ledger), the sqlite pipeline's tie order
puts the submitter into the top 3 and announces, while the mongo and
supabase pipelines (which order the tied group by the score-sorted
stream) leave the submitter out and stay silent: the backends do not
make the same announcement decision for every submission. -/
theorem backends_disagree_on_tie :
    decideAnnounce (pairsOf (top3
        [⟨"idA", 5⟩, ⟨"idB", 10⟩, ⟨"idC", 10⟩, ⟨"idD", 10⟩, ⟨"idA", 10⟩]
        [("idA", ⟨"a", "pa", "ua"⟩), ("idB", ⟨"b", "pb", "ub"⟩),
         ("idC", ⟨"c", "pc", "uc"⟩), ("idD", ⟨"d", "pd", "ud"⟩)])) "a" 10 = true ∧
    decideAnnounce (pairsOf (mongoTop3
        [⟨"idA", 5⟩, ⟨"idB", 10⟩, ⟨"idC", 10⟩, ⟨"idD", 10⟩, ⟨"idA", 10⟩]
        [("idA", ⟨"a", "pa", "ua"⟩), ("idB", ⟨"b", "pb", "ub"⟩),
         ("idC", ⟨"c", "pc", "uc"⟩), ("idD", ⟨"d", "pd", "ud"⟩)])) "a" 10 = false ∧
    decideAnnounce (pairsOfS (supaTop3
        [⟨"idA", 5⟩, ⟨"idB", 10⟩, ⟨"idC", 10⟩, ⟨"idD", 10⟩, ⟨"idA", 10⟩]
        [("idA", ⟨"a", "pa", "ua"⟩), ("idB", ⟨"b", "pb", "ub"⟩),
         ("idC", ⟨"c", "pc", "uc"⟩), ("idD", ⟨"d", "pd", "ud"⟩)])) "a" 10 = false :=
  ⟨rfl, rfl, rfl⟩
